import Mathlib

/-!
Verification of the roids annotation-editor core against its specification.

Shallow embedding of the Rust sources:
  * `src/models/annotation.rs` : `Point`, `AnnotationType`, `Annotation` and its
    vertex operations (here the type `Annotation` is named `Annot`, and functions
    whose Rust names end in `annotation` are shortened to `..._annot`; all other
    names are kept).
  * `src/models/project.rs`    : `ProjectData`.
  * `src/app.rs`               : `History` (undo/redo stacks), `Tool`, the
    application-state slice of `RoidsApp` relevant to the annotation engine,
    `start_annotation`/`finish_annotation`/`cancel_annotation`, the
    background worker of `import_annotations`, and the load-completion
    branch of `update`.
  * `src/io/serialization.rs`  : `convert_vertices_to_flow_style` and the
    structural JSON mapping used by `export_json`/`import_json`.

Modelling conventions:
  * Rust `f64` is modelled as `ℚ`.  The spec (§3) fixes exact component
    equality and all orderings used by the code are on squared distances, so
    no square root is ever needed; coordinates are normalized to `[0,1]` so
    the `f64::MAX` sentinel of `find_nearest_vertex` is modelled as an
    unreachable "infinity" (`Option ℚ` with `none` as the sentinel).
  * Rust `Vec<T>` is modelled as `List T`, in the same order: `Vec::push`
    appends at the end, `Vec::pop` removes the last element, `Vec::remove(0)`
    drops the head.
  * `&mut self` methods returning `bool` are modelled as pure functions
    returning `Bool × _` (the flag and the updated value).
  * File-system and image-decoding effects are passed in as oracles
    (`file_exists`, `load_image`), and parse results of the serializer calls
    are parameters of the worker, so that the worker's control flow is the
    code's.
  * The generic output of the third-party serializers (`serde_json`,
    `serde_yaml`) is modelled from their documented derive semantics: a
    struct serializes as a map whose keys are the field names (with the
    `#[serde(rename = "type")]` and `#[serde(rename_all = "lowercase")]`
    attributes applied), a `Vec` as a sequence.  In YAML block style a
    sequence element that is a map starts on the `- ` line and continues on
    lines aligned after the dash.
-/

namespace Roids

/-- A 2D point with normalized coordinates, from `src/models/annotation.rs`.
Rust `f64` is modelled as `ℚ`. -/
structure Point where
  x : ℚ
  y : ℚ
deriving DecidableEq, Repr

/-- Rust `Point::distance_squared` from `src/models/annotation.rs`. -/
def Point.distance_squared (self other : Point) : ℚ :=
  let dx := self.x - other.x
  let dy := self.y - other.y
  dx * dx + dy * dy

/-- Rust `AnnotationType` from `src/models/annotation.rs`
(`#[serde(rename_all = "lowercase")]`). -/
inductive AnnotType where
  | polygon : AnnotType
  | line : AnnotType
deriving DecidableEq, Repr

/-- The Rust struct `Annotation` from `src/models/annotation.rs`
(named `Annot` here). -/
structure Annot where
  name : String
  annotation_type : AnnotType
  vertices : List Point
deriving DecidableEq, Repr

/-- Rust `Annotation::new`. -/
def Annot.new (name : String) (annotation_type : AnnotType) : Annot :=
  { name := name, annotation_type := annotation_type, vertices := [] }

/-- Rust `Annotation::add_vertex`: `self.vertices.push(point)`. -/
def Annot.add_vertex (self : Annot) (point : Point) : Annot :=
  { self with vertices := self.vertices ++ [point] }

/-- Rust `Annotation::remove_vertex`: bounds-checked `Vec::remove(index)`;
returns the success flag together with the updated value. -/
def Annot.remove_vertex (self : Annot) (index : ℕ) : Bool × Annot :=
  if index < self.vertices.length then
    (true, { self with vertices := self.vertices.eraseIdx index })
  else
    (false, self)

/-- Rust `Annotation::update_vertex`: bounds-checked `self.vertices[index] = new_position`. -/
def Annot.update_vertex (self : Annot) (index : ℕ) (new_position : Point) : Bool × Annot :=
  if index < self.vertices.length then
    (true, { self with vertices := self.vertices.set index new_position })
  else
    (false, self)

/-- Rust `Annotation::is_closed`: true iff the kind is `Polygon`. -/
def Annot.is_closed (self : Annot) : Bool :=
  match self.annotation_type with
  | AnnotType.polygon => true
  | AnnotType.line => false

/-- Rust `Annotation::vertex_count`. -/
def Annot.vertex_count (self : Annot) : ℕ :=
  self.vertices.length

/-- Rust `Iterator::enumerate` (indices starting at `k`; the code always
starts at `0`, the parameter is for reasoning). -/
def enumerate {α : Type} (k : ℕ) : List α → List (ℕ × α)
  | [] => []
  | v :: rest => (k, v) :: enumerate (k + 1) rest

/-- Comparison of a squared distance against the running minimum of
`find_nearest_vertex`.  The Rust code initializes the minimum with
`f64::MAX`; since coordinates are normalized the sentinel is modelled as
`none` (every distance compares below it). -/
def ltOpt (d : ℚ) : Option ℚ → Bool
  | none => true
  | some m => decide (d < m)

/-- The `for (i, vertex) in self.vertices.iter().enumerate()` loop body of
`Annotation::find_nearest_vertex`: the state is the running
`(min_distance, nearest_index)` pair, updated on strict `<`. -/
def nearestLoop (point : Point) : List (ℕ × Point) → Option ℚ × ℕ → Option ℚ × ℕ
  | [], st => st
  | iv :: rest, st =>
      nearestLoop point rest
        (if ltOpt (Point.distance_squared iv.2 point) st.1 then
          (some (Point.distance_squared iv.2 point), iv.1)
        else st)

/-- Rust `Annotation::find_nearest_vertex` from `src/models/annotation.rs`. -/
def Annot.find_nearest_vertex (self : Annot) (point : Point) : Option ℕ :=
  if self.vertices = [] then none
  else some ((nearestLoop point (enumerate 0 self.vertices) (none, 0)).2)

/-- The fold step of `Iterator::min_by` with comparator
`a.distance_squared(point).partial_cmp(&b.distance_squared(point))`:
the accumulator is replaced only when the candidate is strictly smaller,
so the first of equally-minimal elements is kept. -/
def minStep (point : Point) (acc y : ℕ × Point) : ℕ × Point :=
  if Point.distance_squared y.2 point < Point.distance_squared acc.2 point then y else acc

/-- Rust `Iterator::min_by` (first of equal minima) over index/vertex pairs,
keyed by squared distance to `point`. -/
def minByDsq (point : Point) : List (ℕ × Point) → Option (ℕ × Point)
  | [] => none
  | x :: xs => some (xs.foldl (minStep point) x)

/-- Rust `Annotation::find_vertex_within_threshold` from `src/models/annotation.rs`:
enumerate, filter by `distance_squared <= threshold²`, then `min_by`. -/
def Annot.find_vertex_within_threshold (self : Annot) (point : Point) (threshold : ℚ) :
    Option ℕ :=
  let threshold_sq := threshold * threshold
  (minByDsq point
      ((enumerate 0 self.vertices).filter
        (fun iv => decide (Point.distance_squared iv.2 point ≤ threshold_sq)))).map
    (fun iv => iv.1)

/-- Rust `ProjectData` from `src/models/project.rs`. -/
structure ProjectData where
  media_file : String
  frame_width : ℕ
  frame_height : ℕ
  annotations : List Annot
deriving DecidableEq, Repr

/-- Rust `ProjectData::new`. -/
def ProjectData.new (media_file : String) (frame_width frame_height : ℕ) : ProjectData :=
  { media_file := media_file, frame_width := frame_width, frame_height := frame_height,
    annotations := [] }

/-- The `History` struct from `src/app.rs`.  The stacks are `Vec`s of
annotation collections; the list order is the `Vec` order (the top of a
stack is the last element). -/
structure History where
  undo_stack : List (List Annot)
  redo_stack : List (List Annot)
  max_size : ℕ
deriving DecidableEq, Repr

/-- Rust `History::new` (cap 50). -/
def History.new : History :=
  { undo_stack := [], redo_stack := [], max_size := 50 }

/-- Rust `History::push`: append to the undo stack, evict the bottom entry
(`Vec::remove(0)`) when the cap is exceeded, clear the redo stack. -/
def History.push (self : History) (annotations : List Annot) : History :=
  let u := self.undo_stack ++ [annotations]
  let u := if self.max_size < u.length then u.drop 1 else u
  { self with undo_stack := u, redo_stack := [] }

/-- Rust `History::undo`: pop the undo stack; if a state was there, push
`current` onto the redo stack and return the popped state. -/
def History.undo (self : History) (current : List Annot) :
    Option (List Annot) × History :=
  match self.undo_stack.getLast? with
  | some previous =>
      (some previous,
        { self with undo_stack := self.undo_stack.dropLast,
                    redo_stack := self.redo_stack ++ [current] })
  | none => (none, self)

/-- Rust `History::redo`: symmetric to `undo`. -/
def History.redo (self : History) (current : List Annot) :
    Option (List Annot) × History :=
  match self.redo_stack.getLast? with
  | some next =>
      (some next,
        { self with redo_stack := self.redo_stack.dropLast,
                    undo_stack := self.undo_stack ++ [current] })
  | none => (none, self)

/-- Rust `History::can_undo`. -/
def History.can_undo (self : History) : Bool :=
  !self.undo_stack.isEmpty

/-- Rust `History::can_redo`. -/
def History.can_redo (self : History) : Bool :=
  !self.redo_stack.isEmpty

/-- Rust `Tool` from `src/app.rs`. -/
inductive Tool where
  | Select : Tool
  | Polygon : Tool
  | Line : Tool
deriving DecidableEq, Repr

/-- Rust `LoadedImageData` from `src/app.rs` (the decoded pixel buffer is kept
as a list of bytes, values mod 256 are irrelevant to the claims). -/
structure LoadedImageData where
  width : ℕ
  height : ℕ
  pixels : List ℕ
  project : Option ProjectData
deriving DecidableEq, Repr

/-- The result of `crate::io::media::load_image` as consumed by `app.rs`. -/
structure LoadedImg where
  width : ℕ
  height : ℕ
  pixels : List ℕ
deriving DecidableEq, Repr

/-- The annotation-engine slice of `RoidsApp` from `src/app.rs`.  The egui
texture handle is rendering state and is omitted; `loading` models the
conjunction of `image_loader.is_some()` and `loading_message.is_some()`,
which the code sets and clears together. -/
structure RoidsApp where
  current_tool : Tool
  project : Option ProjectData
  selected_annot : Option ℕ
  image_size : Option (ℕ × ℕ)
  in_progress_annot : Option Annot
  annotation_counter : ℕ
  dragging_vertex : Option (ℕ × ℕ)
  history : History
  loading : Bool
deriving DecidableEq, Repr

/-- Rust `RoidsApp::new`. -/
def RoidsApp.new : RoidsApp :=
  { current_tool := Tool.Select, project := none, selected_annot := none,
    image_size := none, in_progress_annot := none, annotation_counter := 0,
    dragging_vertex := none, history := History.new, loading := false }

/-- Rust `RoidsApp::save_to_history`. -/
def RoidsApp.save_to_history (self : RoidsApp) (annotations : List Annot) : RoidsApp :=
  { self with history := History.push self.history annotations }

/-- Rust `RoidsApp::start_annotation` (here `start_annot`): in Select mode do
nothing, otherwise create the in-progress annotation with the default
name `"region N"`/`"line N"`, `N = annotation_counter + 1`. -/
def RoidsApp.start_annot (self : RoidsApp) : RoidsApp :=
  match self.current_tool with
  | Tool.Select => self
  | Tool.Polygon =>
      { self with
        in_progress_annot :=
          some (Annot.new ("region " ++ toString (self.annotation_counter + 1))
            AnnotType.polygon) }
  | Tool.Line =>
      { self with
        in_progress_annot :=
          some (Annot.new ("line " ++ toString (self.annotation_counter + 1))
            AnnotType.line) }

/-- Rust `RoidsApp::finish_annotation` (here `finish_annot`): take the
in-progress annotation; if it has at least 2 vertices, snapshot the
current collection to history and append the annotation to the project,
incrementing `annotation_counter`; otherwise discard it. -/
def RoidsApp.finish_annot (self : RoidsApp) : RoidsApp :=
  match self.in_progress_annot with
  | none => self
  | some annot =>
    let app1 := { self with in_progress_annot := none }
    if 2 ≤ annot.vertex_count then
      let app2 :=
        match app1.project with
        | some p => RoidsApp.save_to_history app1 p.annotations
        | none => app1
      match app2.project with
      | some p =>
          { app2 with
            project := some { p with annotations := p.annotations ++ [annot] },
            annotation_counter := app2.annotation_counter + 1 }
      | none => app2
    else app1

/-- Rust `RoidsApp::cancel_annotation` (here `cancel_annot`). -/
def RoidsApp.cancel_annot (self : RoidsApp) : RoidsApp :=
  { self with in_progress_annot := none }

/-- The `CanvasAction::AddVertex` branch of `RoidsApp::update`: start a
new annotation if none is in progress, then append the vertex to it. -/
def RoidsApp.handle_add_vertex (self : RoidsApp) (point : Point) : RoidsApp :=
  let app1 := if self.in_progress_annot = none then RoidsApp.start_annot self else self
  match app1.in_progress_annot with
  | some annot => { app1 with in_progress_annot := some (Annot.add_vertex annot point) }
  | none => app1

/-- Debug formatting of the `Option<&str>` extension, as used by the
error messages of `app.rs`. -/
def fmtOptExt : Option String → String
  | some s => "Some(\"" ++ s ++ "\")"
  | none => "None"

/-- The background closure spawned by `RoidsApp::import_annotations`
(`src/app.rs` lines 236-268).  The serializer results and the
file-system/image-decoder effects are parameters: `parse_yaml` /
`parse_json` are the results of `import_yaml` / `import_json` on the
chosen path, `file_exists` is `Path::exists`, `load_image` is
`crate::io::media::load_image`. -/
def import_annotations_worker (ext : Option String)
    (parse_yaml parse_json : Except String ProjectData)
    (file_exists : String → Bool)
    (load_image : String → Except String LoadedImg) :
    Except String LoadedImageData :=
  let project_data : Except String ProjectData :=
    match ext with
    | some ("yaml") =>
        match parse_yaml with
        | Except.ok p => Except.ok p
        | Except.error e => Except.error ("Failed to import YAML: " ++ e)
    | some ("yml") =>
        match parse_yaml with
        | Except.ok p => Except.ok p
        | Except.error e => Except.error ("Failed to import YAML: " ++ e)
    | some ("json") =>
        match parse_json with
        | Except.ok p => Except.ok p
        | Except.error e => Except.error ("Failed to import JSON: " ++ e)
    | e => Except.error ("Unsupported file extension: " ++ fmtOptExt e)
  match project_data with
  | Except.error e => Except.error e
  | Except.ok pd =>
    if file_exists pd.media_file = false then
      Except.error ("Referenced image not found: " ++ pd.media_file)
    else
      match load_image pd.media_file with
      | Except.error e => Except.error ("Failed to load image: " ++ e)
      | Except.ok img =>
          Except.ok { width := img.width, height := img.height, pixels := img.pixels,
                      project := some pd }

/-- The load-completion branch of `RoidsApp::update` (`src/app.rs` lines
313-345): on receiving a completed result the loader and the loading
message are cleared; on `Ok` the image size is installed and, when a
reconstituted project was delivered, `annotation_counter` is set to its
number of annotations and the project is installed; on `Err` only an
error is logged. -/
def RoidsApp.handle_load_result (self : RoidsApp)
    (result : Except String LoadedImageData) : RoidsApp :=
  let app1 := { self with loading := false }
  match result with
  | Except.ok d =>
      let app2 := { app1 with image_size := some (d.width, d.height) }
      match d.project with
      | some project =>
          { app2 with annotation_counter := project.annotations.length,
                      project := some project }
      | none => app2
  | Except.error _ => app1

/-- Repeated `History::push` of the states `f 0, f 1, ..., f (n-1)`, in
this order, used to state the history-cap property. -/
def pushN (f : ℕ → List Annot) : ℕ → History → History
  | 0, h => h
  | n + 1, h => History.push (pushN f n h) (f n)

/-- The states delivered by repeatedly calling `History::undo` until it
returns none (the current-state argument does not influence the returned
states, so a dummy is fed). -/
def undoChainFuel : ℕ → History → List (List Annot)
  | 0, _ => []
  | n + 1, h =>
    match History.undo h [] with
    | (none, _) => []
    | (some prev, h2) => prev :: undoChainFuel n h2

/-- All states retrievable from a history via repeated `undo`. -/
def undoChain (h : History) : List (List Annot) :=
  undoChainFuel h.undo_stack.length h

/-- Rust `str::trim_start` (leading-whitespace removal), implemented on
the character list so that concrete evaluation is possible; the lines
handled here are ASCII, so byte counts and character counts agree. -/
def strTrimLeft (s : String) : String :=
  String.mk (s.data.dropWhile Char.isWhitespace)

/-- Rust `str::trim_end` (trailing-whitespace removal). -/
def strTrimRight (s : String) : String :=
  String.mk ((s.data.reverse.dropWhile Char.isWhitespace).reverse)

/-- Rust `str::trim`. -/
def strTrim (s : String) : String :=
  strTrimLeft (strTrimRight s)

/-- Rust `str::starts_with` for string patterns. -/
def strStartsWith (s pat : String) : Bool :=
  List.isPrefixOf pat.data s.data

/-- Rust `str::ends_with` for string patterns. -/
def strEndsWith (s pat : String) : Bool :=
  List.isPrefixOf pat.data.reverse s.data.reverse

/-- Substring occurrence on character lists (Rust `str::contains`). -/
def subOccurs (pat : List Char) : List Char → Bool
  | [] => pat.isEmpty
  | c :: rest => List.isPrefixOf pat (c :: rest) || subOccurs pat rest

/-- Rust `str::contains` for string patterns. -/
def strContains (s pat : String) : Bool :=
  subOccurs pat.data s.data

/-- Rust `str::strip_prefix(pat).unwrap()` as used in
`convert_vertices_to_flow_style`, where the caller has just checked a
`starts_with` condition; if the pattern is not a prefix the Rust code
would panic, here the string is returned unchanged (the branch is only
entered under the corresponding `starts_with` guard). -/
def dropPre (s pat : String) : String :=
  if List.isPrefixOf pat.data s.data then String.mk (s.data.drop pat.data.length) else s

/-- The number of leading whitespace characters of a line
(`line.len() - line.trim_start().len()`). -/
def indentOf (line : String) : ℕ :=
  line.data.length - (strTrimLeft line).data.length

/-- The guard of the rewrite in `convert_vertices_to_flow_style`
(`src/io/serialization.rs` line 34):
`line.contains("vertices:") && line.trim_end().ends_with("vertices:")`. -/
def vertLineMatch (line : String) : Bool :=
  strContains line ("vertices:") && strEndsWith (strTrimRight line) ("vertices:")

/-- The inner vertex-collecting loop of `convert_vertices_to_flow_style`
(`src/io/serialization.rs` lines 47-75).  Returns the collected
`"[x, y]"` strings and the lines remaining after the loop exits.  A
consumed `- `-item that does not start a `- -` pair is skipped (dropped
from the output); after an `- -` line, a following `- ` line completes
the pair, otherwise the follower is re-examined by the loop. -/
def collectVerts : List String → ℕ → List String × List String
  | [], _ => ([], [])
  | vertex_line :: rest, indent =>
    if indentOf vertex_line < indent
        || !(strStartsWith (strTrimLeft vertex_line) "- ") then
      ([], vertex_line :: rest)
    else if strStartsWith (strTrimLeft vertex_line) "- -" then
      let x_str := strTrim (dropPre (strTrimLeft vertex_line) "- - ")
      match rest with
      | [] => ([], [])
      | y_line :: rest2 =>
        if strStartsWith (strTrimLeft y_line) "- " then
          let y_str := strTrim (dropPre (strTrimLeft y_line) "- ")
          let pr := collectVerts rest2 indent
          (("[" ++ x_str ++ ", " ++ y_str ++ "]") :: pr.1, pr.2)
        else
          collectVerts (y_line :: rest2) indent
    else
      collectVerts rest indent

/-- The outer loop of `convert_vertices_to_flow_style`, over the list of
lines, with explicit fuel (each iteration consumes at least one line, so
fuel equal to the number of lines suffices; see
`convertFuel_enough`). -/
def convertFuel : ℕ → List String → String
  | 0, _ => ""
  | _, [] => ""
  | fuel + 1, line :: rest =>
    if vertLineMatch line then
      let indent :=
        match rest with
        | [] => 0
        | l2 :: _ => indentOf l2
      let pr := collectVerts rest indent
      line ++ " [" ++ String.intercalate (", ") pr.1 ++ "]" ++ "\n"
        ++ convertFuel fuel pr.2
    else
      line ++ "\n" ++ convertFuel fuel rest

/-- Rust `convert_vertices_to_flow_style` from `src/io/serialization.rs`,
operating on the `str::lines()` decomposition of the document. -/
def convert_vertices_to_flow_style (lines : List String) : String :=
  convertFuel lines.length lines

/-- Decimal digits of the fractional part `rest / den` (long division
with fuel: 17 significant digits suffice for every shortest `f64`
rendering, and for the exact decimal fractions used here the division
terminates early). -/
def fracLoop : ℕ → ℕ → ℕ → List Char
  | 0, _, _ => []
  | fuel + 1, rest, den =>
    if rest = 0 then []
    else
      let r10 := rest * 10
      Char.ofNat (48 + r10 / den) :: fracLoop fuel (r10 % den) den

/-- Decimal rendering of a nonnegative rational, as the Rust `f64`
serializers print the coordinate values (`0.1`, `0.25`, `1.0`, ...). -/
def fmtQ (q : ℚ) : String :=
  let n := q.num.toNat
  let d := q.den
  let ip := n / d
  let rest := n % d
  if rest = 0 then toString ip ++ ".0"
  else toString ip ++ "." ++ String.mk (fracLoop 17 rest d)

/-- Modelled from the documented derive semantics of `serde_yaml` (the
generic serializer called by `export_yaml`; not part of this
repository's sources): a `Point` value inside a block sequence is
emitted as a two-line block mapping, the `x` field on the `- ` line and
the `y` field aligned after the dash. -/
def yaml_point_lines (indent : String) (v : Point) : List String :=
  [indent ++ "- x: " ++ fmtQ v.x,
   indent ++ "  y: " ++ fmtQ v.y]

/-- Tag of `AnnotationType` under `#[serde(rename_all = "lowercase")]`. -/
def type_tag : AnnotType → String
  | AnnotType.polygon => "polygon"
  | AnnotType.line => "line"

/-- Modelled from the documented derive semantics of `serde_yaml`: an
`Annotation` inside the `annotations` block sequence (field order is
declaration order: `name`, `type`, `vertices`; an empty `Vec` is emitted
as the inline `[]`). -/
def yaml_annot_lines (a : Annot) : List String :=
  ["- name: " ++ a.name,
   "  type: " ++ type_tag a.annotation_type]
  ++ (if a.vertices = [] then ["  vertices: []"]
      else ("  vertices:") :: (a.vertices.map (yaml_point_lines ("  "))).flatten)

/-- Modelled from the documented derive semantics of `serde_yaml`: the
block document emitted for a `ProjectData` value (struct as a mapping in
declaration order, sequences in block style with the dash at the parent
key's indentation), as the list of its lines. -/
def yaml_project_lines (p : ProjectData) : List String :=
  ["media_file: " ++ p.media_file,
   "frame_width: " ++ toString p.frame_width,
   "frame_height: " ++ toString p.frame_height]
  ++ (if p.annotations = [] then ["annotations: []"]
      else ("annotations:") :: (p.annotations.map yaml_annot_lines).flatten)

/-- Rust `export_yaml` from `src/io/serialization.rs` up to the file write:
generic serialization followed by the flow-style rewrite. -/
def export_yaml_text (p : ProjectData) : String :=
  convert_vertices_to_flow_style (yaml_project_lines p)

/-- The JSON data model shared by `serde_json` encoding and decoding
(numbers as exact rationals, matching the `f64`-as-`ℚ` idealization). -/
inductive Json where
  | jnum : ℚ → Json
  | jstr : String → Json
  | jarr : List Json → Json
  | jobj : List (String × Json) → Json

/-- Field lookup in a JSON object (first occurrence). -/
def jlookup (k : String) : List (String × Json) → Option Json
  | [] => none
  | (k2, v) :: rest => if k2 = k then some v else jlookup k rest

/-- Structural JSON encoding of a `Point` under `#[derive(Serialize)]`:
a map with the field names `x` and `y`. -/
def encode_point (v : Point) : Json :=
  Json.jobj [("x", Json.jnum v.x), ("y", Json.jnum v.y)]

/-- Structural JSON encoding of an `Annotation` (field order is
declaration order; the `annotation_type` field is renamed to `type` by
`#[serde(rename = "type")]` and its tag lowercased). -/
def encode_annot (a : Annot) : Json :=
  Json.jobj [("name", Json.jstr a.name),
             ("type", Json.jstr (type_tag a.annotation_type)),
             ("vertices", Json.jarr (a.vertices.map encode_point))]

/-- A `u32` field as the JSON number it serializes to (the rational is
built with `Rat.ofInt`, which is definitionally the integer `w`). -/
def encode_u32 (w : ℕ) : Json :=
  Json.jnum (Rat.ofInt (Int.ofNat w))

/-- Structural JSON encoding of a `ProjectData`, as produced by
`export_json` (`serde_json::to_string_pretty`; the text layer is the
faithful printing of this structure). -/
def encode_project (p : ProjectData) : Json :=
  Json.jobj [("media_file", Json.jstr p.media_file),
             ("frame_width", encode_u32 p.frame_width),
             ("frame_height", encode_u32 p.frame_height),
             ("annotations", Json.jarr (p.annotations.map encode_annot))]

/-- Generic decoding of a string field. -/
def decode_string : Json → Option String
  | Json.jstr s => some s
  | _ => none

/-- Generic decoding of a `f64` field. -/
def decode_qnum : Json → Option ℚ
  | Json.jnum q => some q
  | _ => none

/-- Generic decoding of a `u32` field (`serde` rejects non-integral,
negative or out-of-range numbers; the range check is performed on the
natural part, which for a nonnegative numerator is equivalent to the
integer bound). -/
def decode_u32 : Json → Option ℕ
  | Json.jnum q =>
      if q.den = 1 && decide (0 ≤ q.num) && decide (q.num.toNat < 4294967296) then
        some q.num.toNat
      else none
  | _ => none

/-- Generic decoding of the lowercased `AnnotationType` tag. -/
def decode_type_tag : Json → Option AnnotType
  | Json.jstr s =>
      if s = "polygon" then some AnnotType.polygon
      else if s = "line" then some AnnotType.line
      else none
  | _ => none

/-- Generic decoding of a `Point`. -/
def decode_point : Json → Option Point
  | Json.jobj fields =>
      match jlookup ("x") fields with
      | none => none
      | some jx =>
        match jlookup ("y") fields with
        | none => none
        | some jy =>
          match decode_qnum jx with
          | none => none
          | some qx =>
            match decode_qnum jy with
            | none => none
            | some qy => some { x := qx, y := qy }
  | _ => none

/-- Generic decoding of a homogeneous JSON array. -/
def decode_list {α : Type} (f : Json → Option α) : List Json → Option (List α)
  | [] => some []
  | j :: rest =>
    match f j, decode_list f rest with
    | some a, some tl => some (a :: tl)
    | _, _ => none

/-- Generic decoding of an `Annotation`. -/
def decode_annot : Json → Option Annot
  | Json.jobj fields =>
      match jlookup ("name") fields with
      | none => none
      | some jn =>
        match jlookup ("type") fields with
        | none => none
        | some jt =>
          match jlookup ("vertices") fields with
          | none => none
          | some jv =>
            match decode_string jn with
            | none => none
            | some nm =>
              match decode_type_tag jt with
              | none => none
              | some ty =>
                match jv with
                | Json.jarr js =>
                  (match decode_list decode_point js with
                   | some vs =>
                       some { name := nm, annotation_type := ty, vertices := vs }
                   | none => none)
                | _ => none
  | _ => none

/-- Generic decoding of a `ProjectData`, as performed by `import_json`
(`serde_json::from_str` on the printed text). -/
def decode_project : Json → Option ProjectData
  | Json.jobj fields =>
      match jlookup ("media_file") fields with
      | none => none
      | some jm =>
        match jlookup ("frame_width") fields with
        | none => none
        | some jw =>
          match jlookup ("frame_height") fields with
          | none => none
          | some jh =>
            match jlookup ("annotations") fields with
            | none => none
            | some ja =>
              match decode_string jm with
              | none => none
              | some m =>
                match decode_u32 jw with
                | none => none
                | some w =>
                  match decode_u32 jh with
                  | none => none
                  | some h =>
                    match ja with
                    | Json.jarr js =>
                      (match decode_list decode_annot js with
                       | some anns =>
                           some { media_file := m, frame_width := w,
                                  frame_height := h, annotations := anns }
                       | none => none)
                    | _ => none
  | _ => none

/-- The round-trip project of spec §8: a Polygon with 3 vertices and a
Line with 2 vertices, with exact decimal coordinates. -/
def demo_project : ProjectData :=
  { media_file := "demo.png", frame_width := 640, frame_height := 480,
    annotations :=
      [{ name := "region 1", annotation_type := AnnotType.polygon,
         vertices := [{ x := mkRat 1 10, y := mkRat 2 10 }, { x := mkRat 3 10, y := mkRat 4 10 },
                      { x := mkRat 5 10, y := mkRat 6 10 }] },
       { name := "line 1", annotation_type := AnnotType.line,
         vertices := [{ x := mkRat 7 10, y := mkRat 1 10 }, { x := mkRat 9 10, y := mkRat 3 10 }] }] }

/-- The project of the YAML inline-list property of spec §8: one
annotation with vertices `(0.1, 0.2)` and `(0.3, 0.4)`. -/
def demo8_project : ProjectData :=
  { media_file := "demo.png", frame_width := 640, frame_height := 480,
    annotations :=
      [{ name := "region 1", annotation_type := AnnotType.polygon,
         vertices := [{ x := mkRat 1 10, y := mkRat 2 10 }, { x := mkRat 3 10, y := mkRat 4 10 }] }] }

/-- Concatenation of lines with a trailing newline each: the output of a
pass that rewrites nothing (used to state the pass-through part of the
flow-style transform). -/
def joinLines : List String → String
  | [] => ""
  | l :: rest => l ++ "\n" ++ joinLines rest

/-- An imported project whose single annotation carries the default name
`region 2` although only one annotation is present: after import the
counter is set to the annotation count (1), so the next default name is
`region 2` again. -/
def c10_project : ProjectData :=
  { media_file := "img.png", frame_width := 100, frame_height := 100,
    annotations := [{ name := "region 2", annotation_type := AnnotType.polygon,
                      vertices := [{ x := 0, y := 0 }, { x := 1, y := 0 },
                                   { x := 1, y := 1 }] }] }

/-- Squared distance of an index/vertex pair to a query point
(abbreviation used in the statements about the selection folds). -/
def dsqTo (point : Point) (iv : ℕ × Point) : ℚ :=
  Point.distance_squared iv.2 point

/-! Helper lemmas about the embedded combinators and stacks follow. -/

theorem minFold_spec (point : Point) (xs : List (ℕ × Point)) (acc : ℕ × Point)
    (hpw : (acc :: xs).Pairwise (fun a b => a.1 < b.1)) :
    (xs.foldl (minStep point) acc = acc ∨ xs.foldl (minStep point) acc ∈ xs) ∧
    dsqTo point (xs.foldl (minStep point) acc) ≤ dsqTo point acc ∧
    (∀ y ∈ xs, dsqTo point (xs.foldl (minStep point) acc) ≤ dsqTo point y) ∧
    (xs.foldl (minStep point) acc ≠ acc →
      dsqTo point (xs.foldl (minStep point) acc) < dsqTo point acc) ∧
    (∀ y ∈ acc :: xs, y.1 < (xs.foldl (minStep point) acc).1 →
      dsqTo point (xs.foldl (minStep point) acc) < dsqTo point y) := by
  induction xs generalizing acc with
  | nil =>
    refine ⟨Or.inl rfl, le_refl _, by simp, fun h => absurd rfl h, ?_⟩
    intro y hy hlt
    simp only [List.foldl_nil] at hlt ⊢
    rcases List.mem_singleton.mp hy with rfl
    omega
  | cons y ys ih =>
    have hpw2 := List.pairwise_cons.mp hpw
    have hpw3 := List.pairwise_cons.mp hpw2.2
    have hacc_y : acc.1 < y.1 := hpw2.1 y (List.mem_cons_self _ _)
    have hacc_ys : ∀ z ∈ ys, acc.1 < z.1 := fun z hz => hpw2.1 z (List.mem_cons_of_mem _ hz)
    have hy_ys : ∀ z ∈ ys, y.1 < z.1 := hpw3.1
    have hstep : minStep point acc y = y ∨ minStep point acc y = acc := by
      unfold minStep; split <;> simp
    have hpw4 : ((minStep point acc y) :: ys).Pairwise (fun a b => a.1 < b.1) := by
      rw [List.pairwise_cons]
      refine ⟨?_, hpw3.2⟩
      intro z hz
      rcases hstep with h | h <;> rw [h]
      · exact hy_ys z hz
      · exact hacc_ys z hz
    have IH := ih (minStep point acc y) hpw4
    simp only [List.foldl_cons]
    by_cases hlt : Point.distance_squared y.2 point < Point.distance_squared acc.2 point
    · have hsy : minStep point acc y = y := by unfold minStep; rw [if_pos hlt]
      rw [hsy] at IH
      rw [hsy]
      have hle_y : dsqTo point (ys.foldl (minStep point) y) ≤ dsqTo point y := IH.2.1
      refine ⟨?_, ?_, ?_, ?_, ?_⟩
      · rcases IH.1 with h | h
        · exact Or.inr (by rw [h]; exact List.mem_cons_self _ _)
        · exact Or.inr (List.mem_cons_of_mem _ h)
      · exact le_of_lt (lt_of_le_of_lt hle_y hlt)
      · intro z hz
        rcases List.mem_cons.mp hz with hza | hz
        · rw [hza]; exact hle_y
        · exact IH.2.2.1 z hz
      · intro _
        exact lt_of_le_of_lt hle_y hlt
      · intro z hz hzlt
        rcases List.mem_cons.mp hz with hza | hz
        · rw [hza]; exact lt_of_le_of_lt hle_y hlt
        · exact IH.2.2.2.2 z hz hzlt
    · have hsy : minStep point acc y = acc := by unfold minStep; rw [if_neg hlt]
      rw [hsy] at IH
      rw [hsy]
      have hacc_le : dsqTo point acc ≤ dsqTo point y := le_of_not_lt hlt
      refine ⟨?_, ?_, ?_, ?_, ?_⟩
      · rcases IH.1 with h | h
        · exact Or.inl h
        · exact Or.inr (List.mem_cons_of_mem _ h)
      · exact IH.2.1
      · intro z hz
        rcases List.mem_cons.mp hz with hza | hz
        · rw [hza]; exact le_trans IH.2.1 hacc_le
        · exact IH.2.2.1 z hz
      · intro h
        exact IH.2.2.2.1 h
      · intro z hz hzlt
        rcases List.mem_cons.mp hz with hza | hz
        · -- z = acc, and acc.1 is below the result's index
          rw [hza] at hzlt ⊢
          rcases IH.1 with h | h
          · rw [h] at hzlt; omega
          · have hne : ys.foldl (minStep point) acc ≠ acc := by
              intro he
              have := hacc_ys _ h
              rw [he] at this
              omega
            exact IH.2.2.2.1 hne
        · rcases List.mem_cons.mp hz with hzy | hz2
          · -- z = y while the step kept acc
            rw [hzy] at hzlt ⊢
            rcases IH.1 with h | h
            · rw [h] at hzlt; omega
            · have hne : ys.foldl (minStep point) acc ≠ acc := by
                intro he
                have := hacc_ys _ h
                rw [he] at this
                omega
              exact lt_of_lt_of_le (IH.2.2.2.1 hne) hacc_le
          · exact IH.2.2.2.2 z (List.mem_cons_of_mem _ hz2) hzlt

theorem mem_enumerate {α : Type} (k : ℕ) (l : List α) (iv : ℕ × α) :
    iv ∈ enumerate k l ↔ ∃ j, ∃ h : j < l.length, iv.1 = k + j ∧ l.get ⟨j, h⟩ = iv.2 := by
  induction l generalizing k with
  | nil => simp [enumerate]
  | cons v rest ih =>
    simp only [enumerate, List.mem_cons, ih]
    constructor
    · rintro (rfl | ⟨j, h, h1, h2⟩)
      · refine ⟨0, by simp, by simp, by simp⟩
      · refine ⟨j + 1, by simpa using h, by omega, by simpa using h2⟩
    · rintro ⟨j, h, h1, h2⟩
      cases j with
      | zero =>
        left
        have : iv.2 = v := by simpa using h2.symm
        cases iv
        simp_all
      | succ j =>
        right
        refine ⟨j, by simpa using h, by omega, by simpa using h2⟩

theorem enumerate_pairwise {α : Type} (k : ℕ) (l : List α) :
    (enumerate k l).Pairwise (fun a b => a.1 < b.1) := by
  induction l generalizing k with
  | nil => simp [enumerate]
  | cons v rest ih =>
    simp only [enumerate, List.pairwise_cons]
    refine ⟨?_, ih (k + 1)⟩
    intro b hb
    rcases (mem_enumerate (k + 1) rest b).mp hb with ⟨j, h, h1, _⟩
    omega

theorem enumerate_length {α : Type} (k : ℕ) (l : List α) :
    (enumerate k l).length = l.length := by
  induction l generalizing k with
  | nil => rfl
  | cons v rest ih => simp [enumerate, ih]

theorem get_mem_enumerate {α : Type} (k : ℕ) (l : List α) (j : ℕ) (h : j < l.length) :
    (k + j, l.get ⟨j, h⟩) ∈ enumerate k l := by
  rw [mem_enumerate]
  exact ⟨j, h, rfl, rfl⟩

theorem minByDsq_none (point : Point) (l : List (ℕ × Point)) :
    minByDsq point l = none ↔ l = [] := by
  cases l <;> simp [minByDsq]

theorem minByDsq_some (point : Point) (l : List (ℕ × Point)) (r : ℕ × Point)
    (hpw : l.Pairwise (fun a b => a.1 < b.1)) (h : minByDsq point l = some r) :
    r ∈ l ∧ (∀ y ∈ l, dsqTo point r ≤ dsqTo point y) ∧
      (∀ y ∈ l, y.1 < r.1 → dsqTo point r < dsqTo point y) := by
  cases l with
  | nil => simp [minByDsq] at h
  | cons x xs =>
    have hr : xs.foldl (minStep point) x = r := by
      simpa [minByDsq] using h
    have spec := minFold_spec point xs x hpw
    rw [hr] at spec
    refine ⟨?_, ?_, spec.2.2.2.2⟩
    · rcases spec.1 with h1 | h1
      · rw [h1]; exact List.mem_cons_self _ _
      · exact List.mem_cons_of_mem _ h1
    · intro y hy
      rcases List.mem_cons.mp hy with hyx | hy
      · rw [hyx]; exact spec.2.1
      · exact spec.2.2.1 y hy

theorem nearestLoop_spec (point : Point) (l : List (ℕ × Point)) (m : ℚ) (b : ℕ)
    (hpw : l.Pairwise (fun a b => a.1 < b.1)) (hb : ∀ iv ∈ l, b < iv.1) :
    ∃ m2 i2, nearestLoop point l (some m, b) = (some m2, i2) ∧
      ((i2 = b ∧ m2 = m) ∨
        (∃ v2, (i2, v2) ∈ l ∧ m2 = Point.distance_squared v2 point ∧ m2 < m)) ∧
      m2 ≤ m ∧
      (∀ iv ∈ l, m2 ≤ dsqTo point iv) ∧
      (∀ iv ∈ l, iv.1 < i2 → m2 < dsqTo point iv) := by
  induction l generalizing m b with
  | nil => exact ⟨m, b, rfl, Or.inl ⟨rfl, rfl⟩, le_refl _, by simp, by simp⟩
  | cons iv rest ih =>
    obtain ⟨i, v⟩ := iv
    have hpw2 := List.pairwise_cons.mp hpw
    have hbi : b < i := hb (i, v) (List.mem_cons_self _ _)
    have hbrest : ∀ z ∈ rest, b < z.1 := fun z hz => hb z (List.mem_cons_of_mem _ hz)
    have hirest : ∀ z ∈ rest, i < z.1 := fun z hz => hpw2.1 z hz
    by_cases hlt : Point.distance_squared v point < m
    · have hstep : nearestLoop point ((i, v) :: rest) (some m, b) =
          nearestLoop point rest (some (Point.distance_squared v point), i) := by
        simp [nearestLoop, ltOpt, hlt]
      obtain ⟨m2, i2, heq, hbr, hle, hmin, hstrict⟩ :=
        ih (Point.distance_squared v point) i hpw2.2 hirest
      refine ⟨m2, i2, hstep.trans heq, ?_, ?_, ?_, ?_⟩
      · rcases hbr with ⟨h1, h2⟩ | ⟨v2, hmem, h1, h2⟩
        · exact Or.inr ⟨v, by rw [h1]; exact List.mem_cons_self _ _, h2, h2 ▸ hlt⟩
        · exact Or.inr ⟨v2, List.mem_cons_of_mem _ hmem, h1, lt_trans h2 hlt⟩
      · exact le_of_lt (lt_of_le_of_lt hle hlt)
      · intro z hz
        rcases List.mem_cons.mp hz with hzv | hz
        · rw [hzv]; exact hle
        · exact hmin z hz
      · intro z hz hzlt
        rcases List.mem_cons.mp hz with hzv | hz
        · rw [hzv] at hzlt ⊢
          simp only at hzlt
          rcases hbr with ⟨h1, h2⟩ | ⟨v2, hmem, h1, h2⟩
          · rw [h1] at hzlt; omega
          · exact h2
        · exact hstrict z hz hzlt
    · have hstep : nearestLoop point ((i, v) :: rest) (some m, b) =
          nearestLoop point rest (some m, b) := by
        simp [nearestLoop, ltOpt, hlt]
      obtain ⟨m2, i2, heq, hbr, hle, hmin, hstrict⟩ := ih m b hpw2.2 hbrest
      have hmle : m ≤ Point.distance_squared v point := le_of_not_lt hlt
      refine ⟨m2, i2, hstep.trans heq, ?_, hle, ?_, ?_⟩
      · rcases hbr with h1 | ⟨v2, hmem, h1, h2⟩
        · exact Or.inl h1
        · exact Or.inr ⟨v2, List.mem_cons_of_mem _ hmem, h1, h2⟩
      · intro z hz
        rcases List.mem_cons.mp hz with hzv | hz
        · rw [hzv]
          exact le_trans hle hmle
        · exact hmin z hz
      · intro z hz hzlt
        rcases List.mem_cons.mp hz with hzv | hz
        · rw [hzv] at hzlt ⊢
          simp only at hzlt
          rcases hbr with ⟨h1, _⟩ | ⟨v2, hmem, h1, h2⟩
          · rw [h1] at hzlt; omega
          · exact lt_of_lt_of_le h2 (by simpa using hmle)
        · exact hstrict z hz hzlt

theorem mem_threshold_filter (a : Annot) (point : Point) (tsq : ℚ) (j : ℕ)
    (hj : j < a.vertices.length)
    (hq : Point.distance_squared (a.vertices.get ⟨j, hj⟩) point ≤ tsq) :
    (j, a.vertices.get ⟨j, hj⟩) ∈
      (enumerate 0 a.vertices).filter
        (fun iv => decide (Point.distance_squared iv.2 point ≤ tsq)) := by
  refine List.mem_filter.mpr ⟨?_, by simpa using hq⟩
  have := get_mem_enumerate 0 a.vertices j hj
  simpa using this

/-! Claim theorems, with their witnesses and counterexamples, follow. -/

/-- C6: `find_vertex_within_threshold` returns the index of the
minimum-squared-distance vertex among those with squared distance at most
`threshold²`, ties broken by lowest index, and `none` when no vertex
qualifies; on `[(0,0),(0.5,0),(1,0)]` queried at `(0.52,0.02)` it returns
index 1 with threshold `0.05` and `none` with threshold `0.01`. -/
theorem c6_find_vertex_within_threshold :
    (∀ (a : Annot) (point : Point) (threshold : ℚ) (i : ℕ),
       Annot.find_vertex_within_threshold a point threshold = some i →
       ∃ hi : i < a.vertices.length,
         Point.distance_squared (a.vertices.get ⟨i, hi⟩) point ≤ threshold * threshold ∧
         (∀ j, ∀ hj : j < a.vertices.length,
            Point.distance_squared (a.vertices.get ⟨j, hj⟩) point ≤ threshold * threshold →
            Point.distance_squared (a.vertices.get ⟨i, hi⟩) point ≤
              Point.distance_squared (a.vertices.get ⟨j, hj⟩) point) ∧
         (∀ j, ∀ hj : j < a.vertices.length, j < i →
            Point.distance_squared (a.vertices.get ⟨j, hj⟩) point ≤ threshold * threshold →
            Point.distance_squared (a.vertices.get ⟨i, hi⟩) point <
              Point.distance_squared (a.vertices.get ⟨j, hj⟩) point)) ∧
    (∀ (a : Annot) (point : Point) (threshold : ℚ),
       (Annot.find_vertex_within_threshold a point threshold = none ↔
         ∀ j, ∀ hj : j < a.vertices.length,
           ¬ Point.distance_squared (a.vertices.get ⟨j, hj⟩) point ≤ threshold * threshold)) ∧
    Annot.find_vertex_within_threshold
      ⟨"region 1", AnnotType.polygon,
        [⟨0, 0⟩, ⟨1/2, 0⟩, ⟨1, 0⟩]⟩ ⟨13/25, 1/50⟩ (1/20) = some 1 ∧
    Annot.find_vertex_within_threshold
      ⟨"region 1", AnnotType.polygon,
        [⟨0, 0⟩, ⟨1/2, 0⟩, ⟨1, 0⟩]⟩ ⟨13/25, 1/50⟩ (1/100) = none := by
  refine ⟨?_, ?_,
    by norm_num [Annot.find_vertex_within_threshold, enumerate, minByDsq, minStep,
      Point.distance_squared, List.filter],
    by norm_num [Annot.find_vertex_within_threshold, enumerate, minByDsq, minStep,
      Point.distance_squared, List.filter]⟩
  · intro a point threshold i hfind
    simp only [Annot.find_vertex_within_threshold, Option.map_eq_some'] at hfind
    obtain ⟨r, hmin, hri⟩ := hfind
    have hri2 : r.1 = i := hri
    have hpw : ((enumerate 0 a.vertices).filter
        (fun iv => decide (Point.distance_squared iv.2 point ≤ threshold * threshold))).Pairwise
        (fun x y => x.1 < y.1) :=
      List.Pairwise.sublist (List.filter_sublist _) (enumerate_pairwise 0 a.vertices)
    obtain ⟨hmem, hle, hstrict⟩ := minByDsq_some point _ r hpw hmin
    obtain ⟨hmem2, hq⟩ := List.mem_filter.mp hmem
    obtain ⟨j, hj, hj1, hj2⟩ := (mem_enumerate 0 a.vertices r).mp hmem2
    obtain rfl : i = j := by omega
    refine ⟨hj, ?_, ?_, ?_⟩
    · rw [hj2]
      simpa using hq
    · intro k hk hkq
      have hz := hle _ (mem_threshold_filter a point (threshold * threshold) k hk hkq)
      rw [hj2]
      simpa [dsqTo] using hz
    · intro k hk hki hkq
      have hz := hstrict _ (mem_threshold_filter a point (threshold * threshold) k hk hkq)
        (by simp only; omega)
      rw [hj2]
      simpa [dsqTo] using hz
  · intro a point threshold
    simp only [Annot.find_vertex_within_threshold, Option.map_eq_none', minByDsq_none,
      List.filter_eq_nil_iff]
    constructor
    · intro h j hj hq
      exact absurd (by simpa using hq)
        (by simpa using h _ (get_mem_enumerate 0 a.vertices j hj))
    · intro h iv hiv
      obtain ⟨j, hj, hj1, hj2⟩ := (mem_enumerate 0 a.vertices iv).mp hiv
      simp only [decide_eq_true_eq]
      rw [← hj2]
      exact h j hj

/-- Witness for C6: the characterization applied to the concrete
annotation of the claim, with the `some`-hypothesis discharged by
computation. -/
theorem c6_witness :
    1 < (⟨"region 1", AnnotType.polygon,
      [⟨0, 0⟩, ⟨1/2, 0⟩, ⟨1, 0⟩]⟩ : Annot).vertices.length := by
  obtain ⟨hi, -⟩ :=
    c6_find_vertex_within_threshold.1
      ⟨"region 1", AnnotType.polygon, [⟨0, 0⟩, ⟨1/2, 0⟩, ⟨1, 0⟩]⟩
      ⟨13/25, 1/50⟩ (1/20) 1
      (by norm_num [Annot.find_vertex_within_threshold, enumerate, minByDsq, minStep,
        Point.distance_squared, List.filter])
  exact hi

/-- C7: `find_nearest_vertex` returns `none` exactly on an empty vertex
sequence, and otherwise the index of the minimum-distance vertex with
ties broken in favor of the lowest index (strict `<` comparison); on
`[(0,0),(1,0),(1,1)]` queried at `(0.95,0.05)` it returns index 1. -/
theorem c7_find_nearest_vertex :
    (∀ (a : Annot) (point : Point),
       (Annot.find_nearest_vertex a point = none ↔ a.vertices = [])) ∧
    (∀ (a : Annot) (point : Point) (i : ℕ),
       Annot.find_nearest_vertex a point = some i →
       ∃ hi : i < a.vertices.length,
         (∀ j, ∀ hj : j < a.vertices.length,
            Point.distance_squared (a.vertices.get ⟨i, hi⟩) point ≤
              Point.distance_squared (a.vertices.get ⟨j, hj⟩) point) ∧
         (∀ j, ∀ hj : j < a.vertices.length, j < i →
            Point.distance_squared (a.vertices.get ⟨i, hi⟩) point <
              Point.distance_squared (a.vertices.get ⟨j, hj⟩) point)) ∧
    Annot.find_nearest_vertex
      ⟨"region 1", AnnotType.polygon, [⟨0, 0⟩, ⟨1, 0⟩, ⟨1, 1⟩]⟩
      ⟨19/20, 1/20⟩ = some 1 ∧
    Annot.find_nearest_vertex
      ⟨"empty", AnnotType.line, []⟩ ⟨19/20, 1/20⟩ = none := by
  refine ⟨?_, ?_, ?_,
    by norm_num [Annot.find_nearest_vertex]⟩
  rotate_right
  · unfold Annot.find_nearest_vertex
    rw [if_neg (List.cons_ne_nil _ _)]
    norm_num [enumerate, nearestLoop, ltOpt, Point.distance_squared]
  · intro a point
    obtain ⟨nm, ty, vs⟩ := a
    cases vs <;> simp [Annot.find_nearest_vertex]
  · intro a point i hfind
    obtain ⟨nm, ty, vs⟩ := a
    cases vs with
    | nil => simp [Annot.find_nearest_vertex] at hfind
    | cons v0 rest =>
      have hfind2 : (nearestLoop point (enumerate 0 (v0 :: rest)) (none, 0)).2 = i := by
        simpa [Annot.find_nearest_vertex] using hfind
      have hstep : nearestLoop point (enumerate 0 (v0 :: rest)) (none, 0) =
          nearestLoop point (enumerate 1 rest)
            (some (Point.distance_squared v0 point), 0) := by
        simp [enumerate, nearestLoop, ltOpt]
      obtain ⟨m2, i2, heq, hbr, hle, hmin, hstrict⟩ :=
        nearestLoop_spec point (enumerate 1 rest) (Point.distance_squared v0 point) 0
          (enumerate_pairwise 1 rest)
          (by
            intro z hz
            obtain ⟨j, hj, hj1, _⟩ := (mem_enumerate 1 rest z).mp hz
            omega)
      rw [hstep, heq] at hfind2
      obtain rfl : i2 = i := hfind2
      -- express the final minimum as the distance of the selected vertex
      have hm2get : ∃ hi : i2 < (v0 :: rest).length,
          m2 = Point.distance_squared ((v0 :: rest).get ⟨i2, hi⟩) point := by
        rcases hbr with ⟨h1, h2⟩ | ⟨v2, hmem, h1, _⟩
        · subst h1
          exact ⟨by simp, by simpa using h2⟩
        · obtain ⟨j, hj, hj1, hj2⟩ := (mem_enumerate 1 rest (i2, v2)).mp hmem
          simp only at hj1 hj2
          obtain rfl : i2 = j + 1 := by omega
          refine ⟨by simp [Nat.succ_lt_succ hj], ?_⟩
          rw [h1, ← hj2]
          simp
      obtain ⟨hi, hm2⟩ := hm2get
      refine ⟨hi, ?_, ?_⟩
      · intro j hj
        cases j with
        | zero =>
          rw [← hm2]
          simpa using hle
        | succ j =>
          have hjr : j < rest.length := by simpa using hj
          have hz := hmin (1 + j, rest.get ⟨j, hjr⟩)
            (get_mem_enumerate 1 rest j hjr)
          rw [← hm2]
          have hget : (v0 :: rest).get ⟨j + 1, hj⟩ = rest.get ⟨j, hjr⟩ := by
            simp
          rw [hget]
          simpa [dsqTo] using hz
      · intro j hj hji
        cases j with
        | zero =>
          -- index 0 is strictly beaten, so the branch must have moved past it
          rcases hbr with ⟨h1, _⟩ | ⟨v2, hmem, h1, h2⟩
          · omega
          · rw [← hm2]
            simpa using h2
        | succ j =>
          have hjr : j < rest.length := by simpa using hj
          have hz := hstrict (1 + j, rest.get ⟨j, hjr⟩)
            (get_mem_enumerate 1 rest j hjr) (by simp only; omega)
          rw [← hm2]
          have hget : (v0 :: rest).get ⟨j + 1, hj⟩ = rest.get ⟨j, hjr⟩ := by
            simp
          rw [hget]
          simpa [dsqTo] using hz

/-- Witness for C7: the characterization applied to the concrete
annotation of the claim, with the `some`-hypothesis discharged by
computation. -/
theorem c7_witness :
    1 < (⟨"region 1", AnnotType.polygon,
      [⟨0, 0⟩, ⟨1, 0⟩, ⟨1, 1⟩]⟩ : Annot).vertices.length := by
  obtain ⟨hi, -⟩ :=
    c7_find_nearest_vertex.2.1
      ⟨"region 1", AnnotType.polygon, [⟨0, 0⟩, ⟨1, 0⟩, ⟨1, 1⟩]⟩
      ⟨19/20, 1/20⟩ 1
      (by
        unfold Annot.find_nearest_vertex
        rw [if_neg (List.cons_ne_nil _ _)]
        norm_num [enumerate, nearestLoop, ltOpt, Point.distance_squared])
  exact hi


theorem undoChainFuel_eq (l : List (List Annot)) : ∀ (r : List (List Annot)) (m : ℕ),
    undoChainFuel l.length ⟨l, r, m⟩ = l.reverse := by
  induction l using List.reverseRecOn with
  | nil => intro r m; rfl
  | append_singleton l x ih =>
    intro r m
    have hlen : (l ++ [x]).length = l.length + 1 := by simp
    rw [hlen]
    show (match History.undo ⟨l ++ [x], r, m⟩ [] with
      | (none, _) => []
      | (some prev, h2) => prev :: undoChainFuel l.length h2) = (l ++ [x]).reverse
    simp only [History.undo, List.getLast?_concat, List.dropLast_concat]
    rw [ih]
    simp

theorem undoChain_eq (h : History) : undoChain h = h.undo_stack.reverse := by
  obtain ⟨u, r, m⟩ := h
  exact undoChainFuel_eq u r m

theorem undo_after_push (h : History) (s : List Annot) (cur : List Annot)
    (hm : 0 < h.max_size) :
    ((History.push h s).undo cur).1 = some s := by
  unfold History.push History.undo
  by_cases hc : h.max_size < (h.undo_stack ++ [s]).length
  · simp only [if_pos hc]
    obtain ⟨u0, urest, hu⟩ : ∃ u0 urest, h.undo_stack = u0 :: urest := by
      cases hue : h.undo_stack with
      | nil => rw [hue] at hc; simp at hc; omega
      | cons u0 urest => exact ⟨u0, urest, rfl⟩
    rw [hu]
    simp [List.getLast?_concat]
  · simp only [if_neg hc]
    simp [List.getLast?_concat]

theorem pushN_undo_le (f : ℕ → List Annot) (n : ℕ) (hn : n ≤ 50) :
    (pushN f n History.new).undo_stack = (List.range n).map f ∧
    (pushN f n History.new).max_size = 50 := by
  induction n with
  | zero => exact ⟨rfl, rfl⟩
  | succ n ih =>
    obtain ⟨h1, h2⟩ := ih (by omega)
    have hcap : ¬ ((50 : ℕ) < ((List.range n).map f ++ [f n]).length) := by
      simp
      omega
    constructor
    · show (History.push (pushN f n History.new) (f n)).undo_stack = _
      simp only [History.push, h1, h2, if_neg hcap, List.range_succ, List.map_append,
        List.map_cons, List.map_nil]
    · show (History.push (pushN f n History.new) (f n)).max_size = 50
      simp only [History.push, h2]

/-- C4: `History::push` always clears the redo stack and appends the
snapshot to the undo stack, evicting the bottom (oldest) undo entry when
the cap is exceeded; pushing 51 states with `max_size = 50` leaves
exactly the last 50 pushed states on the undo stack, all retrievable via
repeated undo, with the oldest state discarded. -/
theorem c4_history_push_cap :
    (∀ (h : History) (s : List Annot),
       (History.push h s).redo_stack = [] ∧
       (History.push h s).undo_stack =
         (if h.max_size < (h.undo_stack ++ [s]).length
          then (h.undo_stack ++ [s]).drop 1 else h.undo_stack ++ [s])) ∧
    (∀ f : ℕ → List Annot,
       (pushN f 51 History.new).undo_stack = ((List.range 51).map f).drop 1 ∧
       ((pushN f 51 History.new).undo_stack).length = 50 ∧
       undoChain (pushN f 51 History.new) = (((List.range 51).map f).drop 1).reverse) := by
  constructor
  · intro h s
    exact ⟨rfl, rfl⟩
  · intro f
    obtain ⟨h1, h2⟩ := pushN_undo_le f 50 (le_refl 50)
    have hcap : (50 : ℕ) < ((List.range 50).map f ++ [f 50]).length := by
      simp
    have hu : (pushN f 51 History.new).undo_stack =
        (((List.range 50).map f ++ [f 50]).drop 1) := by
      show (History.push (pushN f 50 History.new) (f 50)).undo_stack = _
      simp only [History.push, h1, h2, if_pos hcap]
    have hr : ((List.range 51).map f) = (List.range 50).map f ++ [f 50] := by
      rw [show (51 : ℕ) = Nat.succ 50 from rfl, List.range_succ]
      simp
    refine ⟨by rw [hu, hr], ?_, ?_⟩
    · rw [hu]
      simp
    · rw [undoChain_eq, hu, hr]

/-- C5: on a fresh history, after pushing `S1` then `S2`, `undo(S3)`
returns `S2` and pushes `S3` onto the redo stack, so a subsequent redo
returns `S3`; `undo` on an empty undo stack returns none and leaves the
whole history (both stacks) unchanged. -/
theorem c5_history_undo_redo :
    ∀ (S1 S2 S3 C : List Annot),
      (History.undo (History.push (History.push History.new S1) S2) S3).1 = some S2 ∧
      ((History.undo (History.push (History.push History.new S1) S2) S3).2).redo_stack =
        [S3] ∧
      (History.redo
        ((History.undo (History.push (History.push History.new S1) S2) S3).2) C).1 =
        some S3 ∧
      (∀ (r : List (List Annot)) (m : ℕ) (cur : List Annot),
         History.undo ⟨[], r, m⟩ cur = (none, ⟨[], r, m⟩)) := by
  intro S1 S2 S3 C
  refine ⟨?_, ?_, ?_, ?_⟩
  · simp [History.new, History.push, History.undo]
  · simp [History.new, History.push, History.undo]
  · simp [History.new, History.push, History.undo, History.redo]
  · intro r m cur
    rfl



/-- C3: finishing an in-progress annotation commits it exactly when it
has at least 2 vertices: on commit the annotation is appended to the
project's collection, `annotation_counter` increments by one, and a
snapshot equal to the pre-commit collection is pushed (so the next undo
returns it); with fewer than 2 vertices the in-progress annotation is
silently discarded with project, counter and history unchanged. -/
theorem c3_finish_commit_gate :
    ∀ (app : RoidsApp) (p : ProjectData) (annot : Annot),
      app.project = some p → app.in_progress_annot = some annot →
      0 < app.history.max_size →
      ((2 ≤ annot.vertex_count →
          (RoidsApp.finish_annot app).project =
            some { p with annotations := p.annotations ++ [annot] } ∧
          (RoidsApp.finish_annot app).annotation_counter = app.annotation_counter + 1 ∧
          (∀ cur, (History.undo (RoidsApp.finish_annot app).history cur).1 =
            some p.annotations) ∧
          (RoidsApp.finish_annot app).in_progress_annot = none) ∧
       (annot.vertex_count < 2 →
          (RoidsApp.finish_annot app).project = some p ∧
          (RoidsApp.finish_annot app).annotation_counter = app.annotation_counter ∧
          (RoidsApp.finish_annot app).history = app.history ∧
          (RoidsApp.finish_annot app).in_progress_annot = none)) := by
  intro app p annot hproj hip hm
  constructor
  · intro hvc
    have hfin : RoidsApp.finish_annot app =
        { app with in_progress_annot := none,
                   history := History.push app.history p.annotations,
                   project := some { p with annotations := p.annotations ++ [annot] },
                   annotation_counter := app.annotation_counter + 1 } := by
      simp only [RoidsApp.finish_annot, hip]
      rw [if_pos hvc]
      simp [RoidsApp.save_to_history, hproj]
    refine ⟨by rw [hfin], by rw [hfin], ?_, by rw [hfin]⟩
    intro cur
    rw [hfin]
    exact undo_after_push app.history p.annotations cur hm
  · intro hvc2
    have hvc : ¬ 2 ≤ annot.vertex_count := by omega
    have hfin : RoidsApp.finish_annot app = { app with in_progress_annot := none } := by
      simp only [RoidsApp.finish_annot, hip]
      rw [if_neg hvc]
    exact ⟨by rw [hfin]; exact hproj, by rw [hfin], by rw [hfin], by rw [hfin]⟩

/-- Witness for C3: a concrete app with an empty project and a 2-vertex
in-progress line; finishing it increments the counter from 0 to 1, with
all hypotheses of the commit gate discharged by computation. -/
theorem c3_witness :
    (RoidsApp.finish_annot { RoidsApp.new with
        project := some { media_file := "img.png", frame_width := 4, frame_height := 4,
                          annotations := [] },
        in_progress_annot := some { name := "line 1", annotation_type := AnnotType.line,
                                    vertices := [{ x := 0, y := 0 },
                                                 { x := 1, y := 1 }] } }).annotation_counter
      = 1 :=
  ((c3_finish_commit_gate _
      { media_file := "img.png", frame_width := 4, frame_height := 4, annotations := [] }
      { name := "line 1", annotation_type := AnnotType.line,
        vertices := [{ x := 0, y := 0 }, { x := 1, y := 1 }] }
      rfl rfl (by decide)).1 (by decide)).2.1

/-- C9: `update_vertex` and `remove_vertex` return false and leave the
annotation unchanged on an out-of-bounds index, return true and apply
the single-element change in bounds, and no model operation changes the
vertex count by more than one per call. -/
theorem c9_vertex_ops_bounds :
    ∀ (a : Annot) (i : ℕ) (p : Point),
      (a.vertices.length ≤ i →
        Annot.update_vertex a i p = (false, a) ∧
        Annot.remove_vertex a i = (false, a)) ∧
      (i < a.vertices.length →
        (Annot.update_vertex a i p).1 = true ∧
        (Annot.update_vertex a i p).2.vertices =
          a.vertices.take i ++ p :: a.vertices.drop (i + 1) ∧
        (Annot.remove_vertex a i).1 = true ∧
        (Annot.remove_vertex a i).2.vertices =
          a.vertices.take i ++ a.vertices.drop (i + 1) ∧
        (Annot.remove_vertex a i).2.vertices.length + 1 = a.vertices.length) ∧
      ((Annot.add_vertex a p).vertices.length = a.vertices.length + 1) ∧
      ((Annot.update_vertex a i p).2.vertices.length = a.vertices.length) ∧
      ((Annot.remove_vertex a i).2.vertices.length = a.vertices.length ∨
        (Annot.remove_vertex a i).2.vertices.length + 1 = a.vertices.length) := by
  intro a i p
  refine ⟨?_, ?_, ?_, ?_, ?_⟩
  · intro hle
    have hni : ¬ i < a.vertices.length := by omega
    exact ⟨by unfold Annot.update_vertex; rw [if_neg hni],
           by unfold Annot.remove_vertex; rw [if_neg hni]⟩
  · intro hi
    have h1 : Annot.update_vertex a i p =
        (true, { a with vertices := a.vertices.set i p }) := by
      unfold Annot.update_vertex; rw [if_pos hi]
    have h2 : Annot.remove_vertex a i =
        (true, { a with vertices := a.vertices.eraseIdx i }) := by
      unfold Annot.remove_vertex; rw [if_pos hi]
    refine ⟨by rw [h1], ?_, by rw [h2], ?_, ?_⟩
    · rw [h1]
      show a.vertices.set i p = _
      rw [List.set_eq_take_append_cons_drop, if_pos hi]
    · rw [h2]
      show a.vertices.eraseIdx i = _
      rw [List.eraseIdx_eq_take_drop_succ]
    · rw [h2]
      show (a.vertices.eraseIdx i).length + 1 = _
      rw [List.length_eraseIdx, if_pos hi]
      omega
  · simp [Annot.add_vertex]
  · unfold Annot.update_vertex
    by_cases hi : i < a.vertices.length
    · rw [if_pos hi]
      simp
    · rw [if_neg hi]
  · unfold Annot.remove_vertex
    by_cases hi : i < a.vertices.length
    · rw [if_pos hi]
      right
      show (a.vertices.eraseIdx i).length + 1 = _
      rw [List.length_eraseIdx, if_pos hi]
      omega
    · rw [if_neg hi]
      left
      rfl

/-- Witness for C9: the bounds contract applied at a concrete 2-vertex
annotation, index 1 (in bounds) and index 5 (out of bounds). -/
theorem c9_witness :
    (Annot.update_vertex
      ⟨"r", AnnotType.polygon, [⟨0, 0⟩, ⟨1, 1⟩]⟩ 5 ⟨0, 0⟩).1 = false ∧
    (Annot.remove_vertex
      ⟨"r", AnnotType.polygon, [⟨0, 0⟩, ⟨1, 1⟩]⟩ 1).1 = true := by
  constructor
  · rw [((c9_vertex_ops_bounds
      ⟨"r", AnnotType.polygon, [⟨0, 0⟩, ⟨1, 1⟩]⟩ 5 ⟨0, 0⟩).1 (by decide)).1]
  · exact ((c9_vertex_ops_bounds
      ⟨"r", AnnotType.polygon, [⟨0, 0⟩, ⟨1, 1⟩]⟩ 1 ⟨0, 0⟩).2.1 (by decide)).2.2.1



theorem decode_point_encode (v : Point) : decode_point (encode_point v) = some v := rfl

theorem decode_list_encode {α : Type} (f : Json → Option α) (enc : α → Json)
    (h : ∀ x, f (enc x) = some x) :
    ∀ l : List α, decode_list f (l.map enc) = some l := by
  intro l
  induction l with
  | nil => rfl
  | cons x rest ih =>
    show decode_list f (enc x :: rest.map enc) = some (x :: rest)
    unfold decode_list
    rw [h x, ih]

theorem decode_annot_encode (a : Annot) : decode_annot (encode_annot a) = some a := by
  obtain ⟨nm, ty, vs⟩ := a
  have hl := decode_list_encode decode_point encode_point decode_point_encode vs
  cases ty <;>
    simp [decode_annot, encode_annot, jlookup, decode_string, decode_type_tag, type_tag, hl]

/-- The JSON encode/decode pair is lossless on every project whose frame
dimensions fit in `u32` (the JSON half of the round-trip property; the
YAML half fails, see `c2_round_trip_failing_input`). -/
theorem decode_u32_encode (w : ℕ) (hw : w < 4294967296) :
    decode_u32 (encode_u32 w) = some w := by
  have h1 : (Rat.ofInt (Int.ofNat w)).den = 1 := rfl
  have h2 : (Rat.ofInt (Int.ofNat w)).num = Int.ofNat w := rfl
  have h3 : (0 : ℤ) ≤ Int.ofNat w := Int.natCast_nonneg w
  have h5 : (Int.ofNat w).toNat = w := rfl
  have hcond : (decide ((Rat.ofInt (Int.ofNat w)).den = 1) &&
      decide (0 ≤ (Rat.ofInt (Int.ofNat w)).num) &&
      decide ((Rat.ofInt (Int.ofNat w)).num.toNat < 4294967296)) = true := by
    rw [h1, h2, h5]
    simp [h3, hw]
  show (if (decide ((Rat.ofInt (Int.ofNat w)).den = 1) &&
      decide (0 ≤ (Rat.ofInt (Int.ofNat w)).num) &&
      decide ((Rat.ofInt (Int.ofNat w)).num.toNat < 4294967296)) = true
    then some (Rat.ofInt (Int.ofNat w)).num.toNat else none) = some w
  rw [hcond, if_pos rfl, h2]
  rfl

set_option maxRecDepth 4000 in
/-- The JSON encode/decode pair is lossless on every project whose frame
dimensions fit in `u32` (the JSON half of the round-trip property; the
YAML half fails, see `c2_round_trip_failing_input`). -/
theorem json_round_trip (p : ProjectData)
    (hw : p.frame_width < 4294967296) (hh : p.frame_height < 4294967296) :
    decode_project (encode_project p) = some p := by
  obtain ⟨m, w, h, anns⟩ := p
  have hl := decode_list_encode decode_annot encode_annot decode_annot_encode anns
  have hw2 : w < 4294967296 := hw
  have hh2 : h < 4294967296 := hh
  show ((match decode_u32 (encode_u32 w) with
        | none => none
        | some w2 =>
          match decode_u32 (encode_u32 h) with
          | none => none
          | some h2 =>
            (match decode_list decode_annot (anns.map encode_annot) with
             | some anns2 =>
                 some { media_file := m, frame_width := w2,
                        frame_height := h2, annotations := anns2 }
             | none => none)) : Option ProjectData) =
      some { media_file := m, frame_width := w, frame_height := h, annotations := anns }
  rw [decode_u32_encode w hw2, decode_u32_encode h hh2]
  show ((match decode_list decode_annot (anns.map encode_annot) with
        | some anns2 => some { media_file := m, frame_width := w,
                               frame_height := h, annotations := anns2 }
        | none => none) : Option ProjectData) =
      some { media_file := m, frame_width := w, frame_height := h, annotations := anns }
  rw [hl]



theorem convertFuel_id (fuel : ℕ) : ∀ (lines : List String), lines.length ≤ fuel →
    (∀ l ∈ lines, vertLineMatch l = false) →
    convertFuel fuel lines = joinLines lines := by
  induction fuel with
  | zero =>
    intro lines hf _
    cases lines with
    | nil => rfl
    | cons a b => simp at hf
  | succ fuel ih =>
    intro lines hf h
    cases lines with
    | nil => rfl
    | cons line rest =>
      have hm := h line (List.mem_cons_self _ _)
      show (if vertLineMatch line = true then _ else
        line ++ "\n" ++ convertFuel fuel rest) = _
      rw [if_neg (by simp [hm])]
      rw [ih rest (by simp at hf; omega) (fun l hl => h l (List.mem_cons_of_mem _ hl))]
      rfl

set_option maxRecDepth 8000 in
/-- C8 (amended): the flow-style pass rewrites exactly those lines that
contain `vertices:` and end with `vertices:` after trailing-whitespace
removal (not only lines whose trimmed content is exactly `vertices:`);
on inputs with no such line it is the identity up to per-line newline
normalization; and on the generically-emitted YAML for a project with
one annotation with vertices `(0.1,0.2)` and `(0.3,0.4)` — where each
vertex is a two-line `x`/`y` block mapping — the vertices entry is
rewritten to `vertices: []`, the `- x:` item lines being consumed, not
to the inline pair list. -/
theorem c8_flow_style_amended :
    (∀ lines : List String, (∀ l ∈ lines, vertLineMatch l = false) →
       convert_vertices_to_flow_style lines = joinLines lines) ∧
    vertLineMatch ("myvertices:") = true ∧
    convert_vertices_to_flow_style ["myvertices:"] = "myvertices: []\n" ∧
    export_yaml_text demo8_project =
      "media_file: demo.png\nframe_width: 640\nframe_height: 480\nannotations:\n- name: region 1\n  type: polygon\n  vertices: []\n    y: 0.2\n  - x: 0.3\n    y: 0.4\n" ∧
    strContains (export_yaml_text demo8_project) "vertices: []" = true ∧
    strContains (export_yaml_text demo8_project)
      "vertices: [[0.1, 0.2], [0.3, 0.4]]" = false := by
  refine ⟨?_, by decide, by decide, by decide, by decide, by decide⟩
  intro lines h
  exact convertFuel_id lines.length lines (le_refl _) h

/-- Witness for C8: the pass-through part applied to a concrete
two-line document without a `vertices:` key. -/
theorem c8_witness :
    convert_vertices_to_flow_style ["media_file: a.png", "frame_width: 2"] =
      joinLines ["media_file: a.png", "frame_width: 2"] :=
  c8_flow_style_amended.1 ["media_file: a.png", "frame_width: 2"] (by decide)

/-- Counterexample for C8 as stated: the line `myvertices:` has trimmed
content different from `vertices:`, so per the claim it must pass
through unchanged, but the pass rewrites it; and the exported YAML for
the claim's project does not contain the inline vertex list. -/
theorem c8_counterexample :
    ¬ (convert_vertices_to_flow_style ["myvertices:"] = joinLines ["myvertices:"]) ∧
    strContains (export_yaml_text demo8_project)
      "vertices: [[0.1, 0.2], [0.3, 0.4]]" = false := by
  exact ⟨by decide, by decide⟩

set_option maxRecDepth 8000 in
/-- C2 (evaluation at the failing input): for the §8 round-trip project
(a Polygon with 3 vertices and a Line with 2 vertices) the JSON
encode/decode pair reproduces the project, but `export_yaml` emits a
document in which both `vertices` entries have been replaced by
`vertices: []`, with the first `- x:` item line of each block consumed
and the remaining coordinate lines stranded: the vertex data cannot be
reproduced by any import of the produced text. -/
theorem c2_round_trip_failing_input :
    decode_project (encode_project demo_project) = some demo_project ∧
    export_yaml_text demo_project =
      "media_file: demo.png\nframe_width: 640\nframe_height: 480\nannotations:\n- name: region 1\n  type: polygon\n  vertices: []\n    y: 0.2\n  - x: 0.3\n    y: 0.4\n  - x: 0.5\n    y: 0.6\n- name: line 1\n  type: line\n  vertices: []\n    y: 0.1\n  - x: 0.9\n    y: 0.3\n" ∧
    strContains (export_yaml_text demo_project) "vertices: []" = true ∧
    strContains (export_yaml_text demo_project) "[0.1, 0.2]" = false := by
  exact ⟨by decide, by decide, by decide, by decide⟩

/-- C1 (amended): when the annotation file parses but the referenced
media path does not exist, the background worker returns an error (not a
warning), and the completion handler leaves the controller unchanged
apart from clearing the loading state; in particular no annotation data
is installed. -/
theorem c1_missing_media_aborts_import :
    ∀ (app : RoidsApp) (ext : String) (pd : ProjectData)
      (file_exists : String → Bool) (load_image : String → Except String LoadedImg),
      (ext = "yaml" ∨ ext = "yml" ∨ ext = "json") →
      file_exists pd.media_file = false →
      (import_annotations_worker (some ext) (Except.ok pd) (Except.ok pd)
          file_exists load_image) =
        Except.error ("Referenced image not found: " ++ pd.media_file) ∧
      RoidsApp.handle_load_result app
          (import_annotations_worker (some ext) (Except.ok pd) (Except.ok pd)
            file_exists load_image) =
        { app with loading := false } ∧
      (RoidsApp.handle_load_result app
          (import_annotations_worker (some ext) (Except.ok pd) (Except.ok pd)
            file_exists load_image)).project = app.project := by
  intro app ext pd fe li hext hfe
  have hw : import_annotations_worker (some ext) (Except.ok pd) (Except.ok pd) fe li =
      Except.error ("Referenced image not found: " ++ pd.media_file) := by
    rcases hext with rfl | rfl | rfl <;>
      simp [import_annotations_worker, hfe]
  refine ⟨hw, ?_, ?_⟩
  · rw [hw]
    rfl
  · rw [hw]
    rfl

/-- Witness for C1: the amended behavior at a concrete import whose
referenced image `missing.png` does not exist. -/
theorem c1_witness :
    (RoidsApp.handle_load_result RoidsApp.new
      (import_annotations_worker (some ("json"))
        (Except.ok ⟨"missing.png", 100, 100, [⟨"line 1", AnnotType.line, []⟩]⟩)
        (Except.ok ⟨"missing.png", 100, 100, [⟨"line 1", AnnotType.line, []⟩]⟩)
        (fun _ => false) (fun _ => Except.error ("x")))).project = RoidsApp.new.project :=
  (c1_missing_media_aborts_import RoidsApp.new ("json")
    ⟨"missing.png", 100, 100, [⟨"line 1", AnnotType.line, []⟩]⟩
    (fun _ => false) (fun _ => Except.error ("x")) (Or.inr (Or.inr rfl)) rfl).2.2

/-- Counterexample for C1 as stated: an import of a successfully parsed
project referencing a nonexistent image ends in an error and installs
nothing — the controller's project stays uninstalled (`none`), contrary
to the claim that the annotation data is still installed. -/
theorem c1_counterexample :
    (import_annotations_worker (some ("json")))
        (Except.ok ⟨"missing.png", 100, 100, [⟨"line 1", AnnotType.line,
          [⟨0, 0⟩, ⟨1, 1⟩]⟩]⟩)
        (Except.ok ⟨"missing.png", 100, 100, [⟨"line 1", AnnotType.line,
          [⟨0, 0⟩, ⟨1, 1⟩]⟩]⟩)
        (fun _ => false) (fun _ => Except.error ("x")) =
      Except.error ("Referenced image not found: missing.png") ∧
    (RoidsApp.handle_load_result RoidsApp.new
      (import_annotations_worker (some ("json"))
        (Except.ok ⟨"missing.png", 100, 100, [⟨"line 1", AnnotType.line,
          [⟨0, 0⟩, ⟨1, 1⟩]⟩]⟩)
        (Except.ok ⟨"missing.png", 100, 100, [⟨"line 1", AnnotType.line,
          [⟨0, 0⟩, ⟨1, 1⟩]⟩]⟩)
        (fun _ => false) (fun _ => Except.error ("x")))).project = none := by
  exact ⟨rfl, rfl⟩

/-- C10: a successfully completed load that delivers a reconstituted
project sets `annotation_counter` to the number of annotations of that
project and installs it; consequently, for an imported project whose
single annotation is named `region 2`, the next annotation started and
committed with the Polygon tool receives the default name `region 2`,
duplicating the existing name. -/
theorem c10_import_sets_counter :
    (∀ (app : RoidsApp) (w h : ℕ) (px : List ℕ) (p : ProjectData),
       (RoidsApp.handle_load_result app
           (Except.ok ⟨w, h, px, some p⟩)).annotation_counter =
         p.annotations.length ∧
       (RoidsApp.handle_load_result app
           (Except.ok ⟨w, h, px, some p⟩)).project = some p) ∧
    (RoidsApp.handle_load_result { RoidsApp.new with current_tool := Tool.Polygon }
        (Except.ok ⟨100, 100, [], some c10_project⟩)).annotation_counter = 1 ∧
    ((RoidsApp.finish_annot
        (RoidsApp.handle_add_vertex
          (RoidsApp.handle_add_vertex
            (RoidsApp.handle_load_result
              { RoidsApp.new with current_tool := Tool.Polygon }
              (Except.ok ⟨100, 100, [], some c10_project⟩))
            ⟨0, 0⟩)
          ⟨1, 0⟩)).project.map
        (fun p => p.annotations.map (fun a => a.name))) =
      some ["region 2", "region 2"] := by
  refine ⟨?_, by decide, by decide⟩
  intro app w h px p
  exact ⟨rfl, rfl⟩


end Roids
